import Mathlib

/-!
Verification of the beam p2p transport layer specification.

The p2p sources (msg_reader.cpp, msg_serializer.cpp, protocol_base.cpp,
stratum.cpp) are listed in the build file but are not present in the
source tree; the corresponding definitions below are modelled from the
spec. The wallet-model and key-obfuscation functions are embedded
directly from src/ui/model/wallet_model.cpp and
src/private_keys/src/utill.cpp.
-/

/-- Modelled from the spec: the frame header is
`[type: fixed-width unsigned][length: fixed-width unsigned]` in a single
fixed byte order. The spec leaves exact widths open; we fix a 1-byte type
and a 4-byte little-endian length, so `HeaderSize = 5`. -/
def headerSize : Nat := 5

/-- Modelled from the spec: the largest value representable in the 4-byte
length field. -/
def fieldMax : Nat := 4294967295

/-- Little-endian 4-byte encoding of a length. -/
def toLE32 (n : Nat) : List Nat :=
  [n % 256, n / 256 % 256, n / 65536 % 256, n / 16777216 % 256]

/-- Little-endian 4-byte decoding of a length. -/
def fromLE32 (b0 b1 b2 b3 : Nat) : Nat :=
  b0 + 256 * b1 + 65536 * b2 + 16777216 * b3

/-- A decoded message: `{ type: tag, payload: opaque byte sequence }`. -/
structure Message where
  type : Nat
  payload : List Nat
deriving DecidableEq, Repr

/-- Modelled from the spec (msg_serializer.cpp is not under src/): the raw
header+payload bytes the Message Serializer produces for one message. The
type byte is stored modulo the 1-byte field width. -/
def encodeBytes (t : Nat) (p : List Nat) : List Nat :=
  (t % 256) :: (toLE32 p.length ++ p)

/-- Modelled from the spec: the Message Serializer; a payload whose length
does not fit the declared length field width fails with MessageTooLarge
(here: `none`). -/
def encode (t : Nat) (p : List Nat) : Option (List Nat) :=
  if p.length ≤ fieldMax then some (encodeBytes t p) else none

/-- Bytes of a sequence of consecutively encoded messages. -/
def encodeAll (msgs : List Message) : List Nat :=
  (msgs.map (fun mg => encodeBytes mg.type mg.payload)).flatten

/-- Reader failure (spec error taxonomy, reader part). -/
inductive ReadError
  | FrameTooLarge
deriving DecidableEq, Repr

/-- Modelled from the spec (msg_reader.cpp is not under src/): the
extraction loop of `feed`. Structural recursion on a fuel argument; one
unit of fuel is spent per extracted frame, and each frame consumes at
least `headerSize` bytes, so fuel `buf.length` always suffices.
Steps, per the spec: with fewer than `headerSize` bytes buffered, wait;
once the header is buffered, decode `length`; if `length > MaxMessageSize`
fail with `FrameTooLarge` (the buffer is dead — the connection is marked
unusable); otherwise wait for `length` payload bytes, then detach
header+payload as one message and repeat on the leftover. Returns
(messages, leftover buffer, error). -/
def extractFuel (m : Nat) : Nat → List Nat → List Message × List Nat × Option ReadError
  | fuel + 1, b0 :: b1 :: b2 :: b3 :: b4 :: rest =>
    let len := fromLE32 b1 b2 b3 b4
    if m < len then ([], [], some .FrameTooLarge)
    else if rest.length < len then ([], b0 :: b1 :: b2 :: b3 :: b4 :: rest, none)
    else
      let r := extractFuel m fuel (rest.drop len)
      (⟨b0, rest.take len⟩ :: r.1, r.2.1, r.2.2)
  | _, buf => ([], buf, none)

/-- The extraction loop at its canonical fuel. -/
def extractLoop (m : Nat) (buf : List Nat) : List Message × List Nat × Option ReadError :=
  extractFuel m buf.length buf

/-- Per-connection reader state: the growable partial buffer, and the
terminal error once the connection is marked unusable. -/
structure ReaderState where
  buffer : List Nat
  error : Option ReadError
deriving DecidableEq, Repr

/-- A fresh reader: empty buffer, no error. -/
def ReaderState.fresh : ReaderState := ⟨[], none⟩

/-- Result of one `feed` call: the decoded messages and the new state. -/
structure FeedResult where
  msgs : List Message
  state : ReaderState
deriving DecidableEq, Repr

/-- Modelled from the spec: `feed(bytes)` appends newly arrived bytes to
the internal buffer and extracts zero or more complete messages. Once the
reader has failed, no further feeding is honored. -/
def feed (m : Nat) (s : ReaderState) (bytes : List Nat) : FeedResult :=
  if s.error.isSome then ⟨[], s⟩
  else
    let r := extractLoop m (s.buffer ++ bytes)
    ⟨r.1, ⟨r.2.1, r.2.2⟩⟩

/-- Feeding a sequence of chunks in order, collecting all decoded
messages. -/
def feedChunks (m : Nat) (s : ReaderState) : List (List Nat) → List Message × ReaderState
  | [] => ([], s)
  | c :: cs =>
    let r := feed m s c
    let rec2 := feedChunks m r.state cs
    (r.msgs ++ rec2.1, rec2.2)

/-- A buffer shorter than the header suspends: nothing extracted, buffer
kept, no error — at every fuel. -/
theorem extractFuel_short (m : Nat) (f : Nat) (buf : List Nat) (h : buf.length < 5) :
    extractFuel m f buf = ([], buf, none) := by
  cases f <;>
    rcases buf with _ | ⟨b0, _ | ⟨b1, _ | ⟨b2, _ | ⟨b3, _ | ⟨b4, rest⟩⟩⟩⟩⟩ <;>
      simp_all [extractFuel] <;> omega

/-- The extraction result does not depend on the fuel, as long as the fuel
covers the buffer length. -/
theorem extractFuel_congr (m : Nat) :
    ∀ f g buf, buf.length ≤ f → buf.length ≤ g →
      extractFuel m f buf = extractFuel m g buf := by
  intro f
  induction f with
  | zero =>
    intro g buf hf _
    have hb : buf = [] := List.length_eq_zero.mp (Nat.le_zero.mp hf)
    subst hb
    rw [extractFuel_short m 0 [] (by simp), extractFuel_short m g [] (by simp)]
  | succ f ih =>
    intro g buf hf hg
    by_cases h5 : buf.length < 5
    · rw [extractFuel_short m _ buf h5, extractFuel_short m g buf h5]
    · rcases buf with _ | ⟨b0, _ | ⟨b1, _ | ⟨b2, _ | ⟨b3, _ | ⟨b4, rest⟩⟩⟩⟩⟩ <;>
        simp at h5 <;> try omega
      rcases g with _ | g
      · simp at hg
      · by_cases hlen : m < fromLE32 b1 b2 b3 b4
        · simp [extractFuel, hlen]
        · by_cases hwait : rest.length < fromLE32 b1 b2 b3 b4
          · simp [extractFuel, hlen, hwait]
          · simp only [extractFuel, if_neg hlen, if_neg hwait]
            simp only [List.length_cons] at hf hg
            rw [ih g (rest.drop (fromLE32 b1 b2 b3 b4))
              (by simp [List.length_drop]; omega) (by simp [List.length_drop]; omega)]

/-- The leftover buffer is never longer than the input buffer. -/
theorem extractFuel_leftover_le (m : Nat) :
    ∀ f buf, (extractFuel m f buf).2.1.length ≤ buf.length := by
  intro f
  induction f with
  | zero =>
    intro buf
    have h0 : extractFuel m 0 buf = ([], buf, none) := by cases buf <;> simp [extractFuel]
    simp [h0]
  | succ f ih =>
    intro buf
    by_cases h5 : buf.length < 5
    · rw [extractFuel_short m _ buf h5]
    · rcases buf with _ | ⟨b0, _ | ⟨b1, _ | ⟨b2, _ | ⟨b3, _ | ⟨b4, rest⟩⟩⟩⟩⟩ <;>
        simp at h5 <;> try omega
      by_cases hlen : m < fromLE32 b1 b2 b3 b4
      · simp [extractFuel, hlen]
      · by_cases hwait : rest.length < fromLE32 b1 b2 b3 b4
        · simp [extractFuel, hlen, hwait]
        · simp only [extractFuel, if_neg hlen, if_neg hwait]
          calc (extractFuel m f (rest.drop (fromLE32 b1 b2 b3 b4))).2.1.length
              ≤ (rest.drop (fromLE32 b1 b2 b3 b4)).length := ih _
            _ ≤ (b0 :: b1 :: b2 :: b3 :: b4 :: rest).length := by
                simp [List.length_drop]; omega

/-- When no error occurred, the leftover buffer can hold at most an
incomplete frame: fewer than `headerSize + MaxMessageSize` bytes. -/
theorem extractFuel_bound (m : Nat) :
    ∀ f buf, buf.length ≤ f → (extractFuel m f buf).2.2 = none →
      (extractFuel m f buf).2.1.length ≤ m + 4 := by
  intro f
  induction f with
  | zero =>
    intro buf hf _
    have hb : buf = [] := List.length_eq_zero.mp (Nat.le_zero.mp hf)
    subst hb
    rw [extractFuel_short m 0 [] (by simp)]
    simp
  | succ f ih =>
    intro buf hf herr
    by_cases h5 : buf.length < 5
    · rw [extractFuel_short m _ buf h5]
      simp
      omega
    · rcases buf with _ | ⟨b0, _ | ⟨b1, _ | ⟨b2, _ | ⟨b3, _ | ⟨b4, rest⟩⟩⟩⟩⟩ <;>
        simp at h5 <;> try omega
      by_cases hlen : m < fromLE32 b1 b2 b3 b4
      · simp [extractFuel, hlen] at herr
      · by_cases hwait : rest.length < fromLE32 b1 b2 b3 b4
        · simp only [extractFuel, if_neg hlen, if_pos hwait]
          simp
          omega
        · simp only [extractFuel, if_neg hlen, if_neg hwait] at herr ⊢
          simp only [List.length_cons] at hf
          exact ih (rest.drop (fromLE32 b1 b2 b3 b4))
            (by simp [List.length_drop]; omega) herr

/-- A leftover produced without error is quiescent: extracting from it
again (at any sufficient fuel) yields no message and leaves it
unchanged. -/
theorem extractFuel_stop (m : Nat) :
    ∀ f buf ms lo, buf.length ≤ f → extractFuel m f buf = (ms, lo, none) →
      ∀ g, lo.length ≤ g → extractFuel m g lo = ([], lo, none) := by
  intro f
  induction f with
  | zero =>
    intro buf ms lo hf h g _
    have hb : buf = [] := List.length_eq_zero.mp (Nat.le_zero.mp hf)
    subst hb
    rw [extractFuel_short m 0 [] (by simp)] at h
    obtain ⟨rfl, rfl⟩ : ms = [] ∧ lo = [] := by simpa [Prod.ext_iff] using h.symm
    exact extractFuel_short m g [] (by simp)
  | succ f ih =>
    intro buf ms lo hf h g hg
    by_cases h5 : buf.length < 5
    · rw [extractFuel_short m _ buf h5] at h
      obtain ⟨rfl, h2⟩ : ms = [] ∧ lo = buf := by simpa [Prod.ext_iff] using h.symm
      subst h2
      exact extractFuel_short m g _ h5
    · rcases buf with _ | ⟨b0, _ | ⟨b1, _ | ⟨b2, _ | ⟨b3, _ | ⟨b4, rest⟩⟩⟩⟩⟩ <;>
        simp at h5 <;> try omega
      by_cases hlen : m < fromLE32 b1 b2 b3 b4
      · simp [extractFuel, hlen, Prod.ext_iff] at h
      · by_cases hwait : rest.length < fromLE32 b1 b2 b3 b4
        · simp only [extractFuel, if_neg hlen, if_pos hwait] at h
          obtain ⟨rfl, rfl⟩ : ms = [] ∧ lo = b0 :: b1 :: b2 :: b3 :: b4 :: rest := by
            simpa [Prod.ext_iff] using h.symm
          rcases g with _ | g
          · simp at hg
          · simp only [extractFuel, if_neg hlen, if_pos hwait]
        · simp only [extractFuel, if_neg hlen, if_neg hwait] at h
          have hcomp : (extractFuel m f (rest.drop (fromLE32 b1 b2 b3 b4))).2.1 = lo ∧
              (extractFuel m f (rest.drop (fromLE32 b1 b2 b3 b4))).2.2 = none := by
            have := congrArg Prod.snd h
            simpa [Prod.ext_iff] using this
          have heq : extractFuel m f (rest.drop (fromLE32 b1 b2 b3 b4)) =
              ((extractFuel m f (rest.drop (fromLE32 b1 b2 b3 b4))).1, lo, none) := by
            rw [← hcomp.1, ← hcomp.2]
          simp only [List.length_cons] at hf
          exact ih (rest.drop (fromLE32 b1 b2 b3 b4)) _ lo
            (by simp [List.length_drop]; omega) heq g hg

/-- Incrementality of extraction, success case: if extracting from `x`
stops without error with messages `ms` and leftover `lo`, then extracting
from `x ++ y` yields `ms` followed by whatever `lo ++ y` yields, with the
same final leftover and error. -/
theorem extract_append (m : Nat) :
    ∀ f x y ms lo ms2 lo2 er2,
      x.length + y.length ≤ f →
      extractFuel m f x = (ms, lo, none) →
      extractFuel m f (lo ++ y) = (ms2, lo2, er2) →
      extractFuel m f (x ++ y) = (ms ++ ms2, lo2, er2) := by
  intro f
  induction f with
  | zero =>
    intro x y ms lo ms2 lo2 er2 hf h1 h2
    have hx : x = [] := List.length_eq_zero.mp (by omega)
    subst hx
    rw [extractFuel_short m 0 [] (by simp)] at h1
    obtain ⟨rfl, h2'⟩ : ms = [] ∧ lo = [] := by simpa [Prod.ext_iff] using h1.symm
    subst h2'
    simpa using h2
  | succ f ih =>
    intro x y ms lo ms2 lo2 er2 hf h1 h2
    by_cases h5 : x.length < 5
    · rw [extractFuel_short m _ x h5] at h1
      obtain ⟨rfl, h2'⟩ : ms = [] ∧ lo = x := by simpa [Prod.ext_iff] using h1.symm
      subst h2'
      simpa using h2
    · rcases x with _ | ⟨b0, _ | ⟨b1, _ | ⟨b2, _ | ⟨b3, _ | ⟨b4, rest⟩⟩⟩⟩⟩ <;>
        simp at h5 <;> try omega
      by_cases hlen : m < fromLE32 b1 b2 b3 b4
      · simp [extractFuel, hlen, Prod.ext_iff] at h1
      · by_cases hwait : rest.length < fromLE32 b1 b2 b3 b4
        · simp only [extractFuel, if_neg hlen, if_pos hwait] at h1
          obtain ⟨rfl, h2'⟩ : ms = [] ∧ lo = b0 :: b1 :: b2 :: b3 :: b4 :: rest := by
            simpa [Prod.ext_iff] using h1.symm
          subst h2'
          simpa using h2
        · simp only [extractFuel, if_neg hlen, if_neg hwait] at h1
          simp only [List.length_cons] at hf
          push_neg at hwait
          have hdl : (rest.drop (fromLE32 b1 b2 b3 b4)).length =
              rest.length - fromLE32 b1 b2 b3 b4 := by simp [List.length_drop]
          have hms : ms = ⟨b0, rest.take (fromLE32 b1 b2 b3 b4)⟩ ::
              (extractFuel m f (rest.drop (fromLE32 b1 b2 b3 b4))).1 := by
            have := congrArg Prod.fst h1
            simpa using this.symm
          have hcomp : (extractFuel m f (rest.drop (fromLE32 b1 b2 b3 b4))).2.1 = lo ∧
              (extractFuel m f (rest.drop (fromLE32 b1 b2 b3 b4))).2.2 = none := by
            have := congrArg Prod.snd h1
            simpa [Prod.ext_iff] using this
          have heq : extractFuel m f (rest.drop (fromLE32 b1 b2 b3 b4)) =
              ((extractFuel m f (rest.drop (fromLE32 b1 b2 b3 b4))).1, lo, none) := by
            rw [← hcomp.1, ← hcomp.2]
          have hlolen : lo.length ≤ (rest.drop (fromLE32 b1 b2 b3 b4)).length := by
            rw [← hcomp.1]
            exact extractFuel_leftover_le m f _
          have h2f : extractFuel m f (lo ++ y) = (ms2, lo2, er2) := by
            rw [extractFuel_congr m f (f + 1) (lo ++ y)
              (by simp; omega) (by simp; omega)]
            exact h2
          have hind := ih (rest.drop (fromLE32 b1 b2 b3 b4)) y _ lo ms2 lo2 er2
            (by omega) heq h2f
          show extractFuel m (f + 1)
            (b0 :: b1 :: b2 :: b3 :: b4 :: (rest ++ y)) = (ms ++ ms2, lo2, er2)
          have hwait2 : ¬ (rest ++ y).length < fromLE32 b1 b2 b3 b4 := by
            simp
            omega
          simp only [extractFuel, if_neg hlen, if_neg hwait2]
          rw [List.take_append_eq_append_take, List.drop_append_eq_append_drop,
            Nat.sub_eq_zero_of_le hwait, List.take_zero, List.drop_zero,
            List.append_nil]
          rw [hind, hms]
          simp

/-- Incrementality of extraction, failure case: once extraction from `x`
fails, appending further bytes changes nothing — same messages, same
(cleared) leftover, same error. -/
theorem extract_append_fail (m : Nat) :
    ∀ f x y ms lo e,
      x.length + y.length ≤ f →
      extractFuel m f x = (ms, lo, some e) →
      extractFuel m f (x ++ y) = (ms, lo, some e) := by
  intro f
  induction f with
  | zero =>
    intro x y ms lo e hf h1
    have hx : x = [] := List.length_eq_zero.mp (by omega)
    subst hx
    rw [extractFuel_short m 0 [] (by simp)] at h1
    simp [Prod.ext_iff] at h1
  | succ f ih =>
    intro x y ms lo e hf h1
    by_cases h5 : x.length < 5
    · rw [extractFuel_short m _ x h5] at h1
      simp [Prod.ext_iff] at h1
    · rcases x with _ | ⟨b0, _ | ⟨b1, _ | ⟨b2, _ | ⟨b3, _ | ⟨b4, rest⟩⟩⟩⟩⟩ <;>
        simp at h5 <;> try omega
      by_cases hlen : m < fromLE32 b1 b2 b3 b4
      · simp only [extractFuel, if_pos hlen] at h1
        obtain ⟨rfl, h2', rfl⟩ : ms = [] ∧ lo = [] ∧ e = ReadError.FrameTooLarge := by
          simpa [Prod.ext_iff] using h1.symm
        subst h2'
        show extractFuel m (f + 1)
          (b0 :: b1 :: b2 :: b3 :: b4 :: (rest ++ y)) = ([], [], some .FrameTooLarge)
        simp only [extractFuel, if_pos hlen]
      · by_cases hwait : rest.length < fromLE32 b1 b2 b3 b4
        · simp only [extractFuel, if_neg hlen, if_pos hwait] at h1
          simp [Prod.ext_iff] at h1
        · simp only [extractFuel, if_neg hlen, if_neg hwait] at h1
          simp only [List.length_cons] at hf
          push_neg at hwait
          have hms : ms = ⟨b0, rest.take (fromLE32 b1 b2 b3 b4)⟩ ::
              (extractFuel m f (rest.drop (fromLE32 b1 b2 b3 b4))).1 := by
            have := congrArg Prod.fst h1
            simpa using this.symm
          have hcomp : (extractFuel m f (rest.drop (fromLE32 b1 b2 b3 b4))).2.1 = lo ∧
              (extractFuel m f (rest.drop (fromLE32 b1 b2 b3 b4))).2.2 = some e := by
            have := congrArg Prod.snd h1
            simpa [Prod.ext_iff] using this
          have heq : extractFuel m f (rest.drop (fromLE32 b1 b2 b3 b4)) =
              ((extractFuel m f (rest.drop (fromLE32 b1 b2 b3 b4))).1, lo, some e) := by
            rw [← hcomp.1, ← hcomp.2]
          have hind := ih (rest.drop (fromLE32 b1 b2 b3 b4)) y _ lo e
            (by simp [List.length_drop]; omega) heq
          show extractFuel m (f + 1)
            (b0 :: b1 :: b2 :: b3 :: b4 :: (rest ++ y)) = (ms, lo, some e)
          have hwait2 : ¬ (rest ++ y).length < fromLE32 b1 b2 b3 b4 := by
            simp
            omega
          simp only [extractFuel, if_neg hlen, if_neg hwait2]
          rw [List.take_append_eq_append_take, List.drop_append_eq_append_drop,
            Nat.sub_eq_zero_of_le hwait, List.take_zero, List.drop_zero,
            List.append_nil]
          rw [hind, hms]

/-- The 4-byte little-endian length encoding round-trips for lengths that
fit the field. -/
theorem fromLE32_toLE32 (n : Nat) (h : n ≤ fieldMax) :
    fromLE32 (n % 256) (n / 256 % 256) (n / 65536 % 256) (n / 16777216 % 256) = n := by
  simp only [fromLE32, fieldMax] at *
  omega

/-- The extraction loop at any fuel, renormalized to the canonical one. -/
theorem extractLoop_fuel (m : Nat) (buf : List Nat) (g : Nat) (hg : buf.length ≤ g) :
    extractLoop m buf = extractFuel m g buf :=
  extractFuel_congr m buf.length g buf le_rfl hg

/-- Extracting from one encoded frame followed by anything yields that
frame's message first, then whatever the remainder yields. -/
theorem extract_encode (m t : Nat) (p : List Nat) (hp : p.length ≤ m) (hm : m ≤ fieldMax)
    (f : Nat) (rest : List Nat) (_hf : rest.length ≤ f) :
    extractFuel m (f + 1) (encodeBytes t p ++ rest) =
      (⟨t % 256, p⟩ :: (extractFuel m f rest).1, (extractFuel m f rest).2) := by
  have hle : fromLE32 (p.length % 256) (p.length / 256 % 256)
      (p.length / 65536 % 256) (p.length / 16777216 % 256) = p.length :=
    fromLE32_toLE32 p.length (le_trans hp hm)
  show extractFuel m (f + 1) ((t % 256) :: (toLE32 p.length ++ p) ++ rest) = _
  simp only [toLE32, List.cons_append, List.append_assoc, List.nil_append]
  simp only [extractFuel, hle]
  rw [if_neg (by omega), if_neg (by simp)]
  rw [List.take_left, List.drop_left]

/-- Extracting from the concatenation of consecutively encoded valid
messages recovers exactly those messages, consumes all bytes and raises
no error. -/
theorem extract_encodeAll (m : Nat) (hm : m ≤ fieldMax) :
    ∀ msgs : List Message, (∀ mg ∈ msgs, mg.type < 256 ∧ mg.payload.length ≤ m) →
      ∀ f, (encodeAll msgs).length ≤ f →
        extractFuel m f (encodeAll msgs) = (msgs, [], none) := by
  intro msgs
  induction msgs with
  | nil =>
    intro _ f _
    have : encodeAll [] = [] := by simp [encodeAll]
    rw [this]
    exact extractFuel_short m f [] (by simp)
  | cons mg rest ih =>
    intro hv f hf
    have hflat : encodeAll (mg :: rest) = encodeBytes mg.type mg.payload ++ encodeAll rest := by
      simp [encodeAll]
    rw [hflat] at hf ⊢
    have hlen5 : (encodeBytes mg.type mg.payload).length = 5 + mg.payload.length := by
      simp [encodeBytes, toLE32]
      omega
    rcases f with _ | f
    · simp [hlen5] at hf
    · rw [extract_encode m mg.type mg.payload (hv mg (by simp)).2 hm f (encodeAll rest)
        (by simp [hlen5] at hf; omega)]
      rw [ih (fun x hx => hv x (by simp [hx])) f (by simp [hlen5] at hf; omega)]
      have : mg.type % 256 = mg.type := Nat.mod_eq_of_lt (hv mg (by simp)).1
      simp [this]
/-- A failed reader honors no further feeding. -/
theorem feed_failed (m : Nat) (s : ReaderState) (bytes : List Nat)
    (h : s.error.isSome) : feed m s bytes = ⟨[], s⟩ := by
  simp [feed, h]

/-- A failed reader honors no further feeding, over any sequence of
chunks. -/
theorem feedChunks_failed (m : Nat) :
    ∀ chunks (s : ReaderState), s.error.isSome →
      feedChunks m s chunks = ([], s) := by
  intro chunks
  induction chunks with
  | nil => intro s _; rfl
  | cons c cs ih =>
    intro s h
    simp only [feedChunks, feed_failed m s c h]
    rw [ih s h]
    simp

/-- Splitting one feed call into two: feeding `x ++ y` is the same as
feeding `x` and then `y`, both in messages and in the final state. -/
theorem feed_append (m : Nat) (s : ReaderState) (x y : List Nat)
    (hse : s.error = none) :
    feed m s (x ++ y) =
      ⟨(feed m s x).msgs ++ (feed m (feed m s x).state y).msgs,
       (feed m (feed m s x).state y).state⟩ := by
  have hs : s.error.isSome = false := by rw [hse]; rfl
  have hfx : feed m s x =
      ⟨(extractLoop m (s.buffer ++ x)).1,
       ⟨(extractLoop m (s.buffer ++ x)).2.1, (extractLoop m (s.buffer ++ x)).2.2⟩⟩ := by
    simp [feed, hs]
  have hlo : (extractLoop m (s.buffer ++ x)).2.1.length ≤ (s.buffer ++ x).length :=
    extractFuel_leftover_le m (s.buffer ++ x).length (s.buffer ++ x)
  have hassoc : s.buffer ++ (x ++ y) = (s.buffer ++ x) ++ y :=
    (List.append_assoc s.buffer x y).symm
  have hxy : feed m s (x ++ y) =
      ⟨(extractLoop m ((s.buffer ++ x) ++ y)).1,
       ⟨(extractLoop m ((s.buffer ++ x) ++ y)).2.1,
        (extractLoop m ((s.buffer ++ x) ++ y)).2.2⟩⟩ := by
    simp only [feed, hs, Bool.false_eq_true, if_false, hassoc]
  have hxF : extractFuel m ((s.buffer ++ x).length + y.length) (s.buffer ++ x) =
      ((extractLoop m (s.buffer ++ x)).1, (extractLoop m (s.buffer ++ x)).2.1,
       (extractLoop m (s.buffer ++ x)).2.2) := by
    rw [← extractLoop_fuel m _ _ (by omega)]
  rcases her : (extractLoop m (s.buffer ++ x)).2.2 with _ | e
  · -- first part extracted without failure
    have h2F : extractFuel m ((s.buffer ++ x).length + y.length)
        ((extractLoop m (s.buffer ++ x)).2.1 ++ y) =
        ((extractLoop m ((extractLoop m (s.buffer ++ x)).2.1 ++ y)).1,
         (extractLoop m ((extractLoop m (s.buffer ++ x)).2.1 ++ y)).2.1,
         (extractLoop m ((extractLoop m (s.buffer ++ x)).2.1 ++ y)).2.2) := by
      rw [← extractLoop_fuel m _ _
        (by simp only [List.length_append] at hlo ⊢; omega)]
    have happ := extract_append m ((s.buffer ++ x).length + y.length)
      (s.buffer ++ x) y (extractLoop m (s.buffer ++ x)).1
      (extractLoop m (s.buffer ++ x)).2.1 _ _ _ le_rfl (by rw [hxF, her]) h2F
    have hfy : feed m (feed m s x).state y =
        ⟨(extractLoop m ((extractLoop m (s.buffer ++ x)).2.1 ++ y)).1,
         ⟨(extractLoop m ((extractLoop m (s.buffer ++ x)).2.1 ++ y)).2.1,
          (extractLoop m ((extractLoop m (s.buffer ++ x)).2.1 ++ y)).2.2⟩⟩ := by
      rw [hfx]
      simp [feed, her]
    rw [hxy, hfy, hfx]
    rw [extractLoop_fuel m ((s.buffer ++ x) ++ y) ((s.buffer ++ x).length + y.length)
      (by simp only [List.length_append]; omega), happ]
  · -- first part failed
    have happ := extract_append_fail m ((s.buffer ++ x).length + y.length)
      (s.buffer ++ x) y (extractLoop m (s.buffer ++ x)).1
      (extractLoop m (s.buffer ++ x)).2.1 e le_rfl (by rw [hxF, her])
    have hfy : feed m (feed m s x).state y = ⟨[], (feed m s x).state⟩ := by
      apply feed_failed
      rw [hfx]
      simp [her]
    rw [hxy, hfy, hfx]
    rw [extractLoop_fuel m ((s.buffer ++ x) ++ y) ((s.buffer ++ x).length + y.length)
      (by simp only [List.length_append]; omega), happ]
    simp [her]

/-- A reader state is quiescent when extraction from its buffer alone
yields nothing and changes nothing. Every state the reader actually
reaches is quiescent (or failed). -/
def Quiescent (m : Nat) (s : ReaderState) : Prop :=
  extractLoop m s.buffer = ([], s.buffer, none)

/-- The fresh reader is quiescent. -/
theorem quiescent_fresh (m : Nat) : Quiescent m ReaderState.fresh :=
  extractFuel_short m 0 [] (by simp)

/-- Feeding a quiescent reader is equivalent to restarting extraction on
buffer plus bytes; in particular feeding nothing is a no-op (used for
the zero-byte edge case). -/
theorem feed_quiescent_nil (m : Nat) (s : ReaderState)
    (hq : s.error = none → Quiescent m s) : feed m s [] = ⟨[], s⟩ := by
  rcases hse : s.error with _ | e
  · have hquiet := hq hse
    unfold Quiescent at hquiet
    rcases s with ⟨buf, er⟩
    simp only at hse
    subst hse
    simp only [feed, Option.isSome_none, Bool.false_eq_true, if_false,
      List.append_nil]
    rw [hquiet]
  · exact feed_failed m s [] (by simp [hse])

/-- Every state produced by `feed` from a quiescent-or-failed state is
again quiescent or failed. -/
theorem feed_quiescent (m : Nat) (s : ReaderState) (bytes : List Nat)
    (h : (feed m s bytes).state.error = none) :
    Quiescent m (feed m s bytes).state := by
  rcases hse : s.error with _ | e
  · have hs : s.error.isSome = false := by rw [hse]; rfl
    have hfx : feed m s bytes =
        ⟨(extractLoop m (s.buffer ++ bytes)).1,
         ⟨(extractLoop m (s.buffer ++ bytes)).2.1,
          (extractLoop m (s.buffer ++ bytes)).2.2⟩⟩ := by
      simp [feed, hs]
    rw [hfx] at h ⊢
    simp only at h
    unfold Quiescent
    simp only
    have hstop := extractFuel_stop m (s.buffer ++ bytes).length (s.buffer ++ bytes)
      (extractLoop m (s.buffer ++ bytes)).1 (extractLoop m (s.buffer ++ bytes)).2.1
      le_rfl (by rw [← h]; rfl)
    exact hstop _ le_rfl
  · rw [feed_failed m s bytes (by simp [hse])] at h
    simp [hse] at h

/-- Feeding a sequence of chunks is equivalent to feeding their
concatenation in one call: same messages in the same order, same final
state. -/
theorem feedChunks_eq_single (m : Nat) :
    ∀ chunks (s : ReaderState), (s.error = none → Quiescent m s) →
      feedChunks m s chunks =
        ((feed m s chunks.flatten).msgs, (feed m s chunks.flatten).state) := by
  intro chunks
  induction chunks with
  | nil =>
    intro s hq
    show ([], s) = _
    rw [show ([] : List (List Nat)).flatten = [] from rfl,
      feed_quiescent_nil m s hq]
  | cons c cs ih =>
    intro s hq
    rcases hse : s.error with _ | e
    · have hq1 : (feed m s c).state.error = none → Quiescent m (feed m s c).state :=
        fun herr => feed_quiescent m s c herr
      show ((feed m s c).msgs ++ (feedChunks m (feed m s c).state cs).1,
          (feedChunks m (feed m s c).state cs).2) = _
      rw [ih (feed m s c).state hq1]
      rw [show (c :: cs).flatten = c ++ cs.flatten from List.flatten_cons ..]
      rw [feed_append m s c cs.flatten hse]
    · have hsome : s.error.isSome := by simp [hse]
      rw [feedChunks_failed m (c :: cs) s hsome, feed_failed m s (c :: cs).flatten hsome]

/-- Protocol Base connection states (spec state machine). -/
inductive ConnState
  | Unconnected
  | Negotiating
  | Active
  | Closed
deriving DecidableEq, Repr

/-- Protocol Base errors (spec error taxonomy). -/
inductive ProtoError
  | ProtocolViolation
  | UnknownMessageType
  | FrameError
deriving DecidableEq, Repr

/-- Modelled from the spec (protocol_base.cpp is not under src/):
per-connection protocol state — connection state, negotiated version,
the bound reader, the handler table (modelled by its domain of registered
message types), the record of handler invocations in dispatch order, and
the terminal error. -/
structure ProtoState where
  conn : ConnState
  negotiatedVersion : Option Nat
  reader : ReaderState
  handlers : List Nat
  calls : List Message
  protoError : Option ProtoError
deriving DecidableEq, Repr

/-- A newly established connection: version negotiation pending, fresh
reader, no handler invoked yet. -/
def ProtoState.init (handlers : List Nat) : ProtoState :=
  ⟨.Negotiating, none, ReaderState.fresh, handlers, [], none⟩

/-- Modelled from the spec: dispatch of a single decoded message. Before
version negotiation only a handshake message (type `hsType`) is accepted;
anything else fails the connection with `ProtocolViolation`. After
negotiation a registered handler is invoked (recorded in `calls`); an
unregistered type disconnects with `UnknownMessageType`. A closed
connection dispatches nothing. -/
def dispatchOne (hsType : Nat) (s : ProtoState) (msg : Message) : ProtoState :=
  if s.conn = .Closed then s
  else
    match s.negotiatedVersion with
    | none =>
      if msg.type = hsType then
        { s with negotiatedVersion := some (msg.payload.headD 0), conn := .Active }
      else
        { s with conn := .Closed, protoError := some .ProtocolViolation }
    | some _ =>
      if msg.type ∈ s.handlers then { s with calls := s.calls ++ [msg] }
      else { s with conn := .Closed, protoError := some .UnknownMessageType }

/-- Modelled from the spec: `onNewData(bytes)` feeds the reader, then
dispatches each decoded message in order; a framing failure transitions
the connection to `Closed` with a terminal error. A closed connection
ignores new data. -/
def onNewData (hsType m : Nat) (s : ProtoState) (bytes : List Nat) : ProtoState :=
  if s.conn = .Closed then s
  else
    let r := feed m s.reader bytes
    let s2 := r.msgs.foldl (dispatchOne hsType) { s with reader := r.state }
    match r.state.error with
    | some _ =>
      { s2 with conn := .Closed,
                protoError := match s2.protoError with
                  | some e => some e
                  | none => some .FrameError }
    | none => s2

/-- A closed protocol state absorbs every dispatch. -/
theorem dispatchOne_closed (hsType : Nat) (s : ProtoState) (h : s.conn = .Closed) :
    ∀ msgs : List Message, msgs.foldl (dispatchOne hsType) s = s := by
  intro msgs
  induction msgs with
  | nil => rfl
  | cons mg rest ih =>
    have hstep : dispatchOne hsType s mg = s := by simp [dispatchOne, h]
    show rest.foldl (dispatchOne hsType) (dispatchOne hsType s mg) = s
    rw [hstep]
    exact ih

/-- A closed connection ignores `onNewData` entirely. -/
theorem onNewData_closed (hsType m : Nat) (s : ProtoState) (h : s.conn = .Closed)
    (bytes : List Nat) : onNewData hsType m s bytes = s := by
  simp [onNewData, h]

/-- Stratum session connection states (spec state machine; `Subscribing`
and `Authorizing` are the in-flight phases between the spec's named
milestones). -/
inductive StratumConnState
  | Connecting
  | Subscribing
  | Authorizing
  | Ready
  | Closed
deriving DecidableEq, Repr

/-- Stratum-level errors surfaced to the local caller. -/
inductive StratumError
  | NotReady
deriving DecidableEq, Repr

/-- Modelled from the spec (stratum.cpp is not under src/): a Stratum
session — connection state, the monotonically increasing request id, the
pending `id → callback` mapping (modelled by the ids and a request-kind
tag), and the connection's outgoing write queue of byte fragments. -/
structure StratumSession where
  connectionState : StratumConnState
  nextId : Nat
  pending : List (Nat × Nat)
  writeQueue : List (List Nat)
deriving DecidableEq, Repr

/-- Modelled from the spec: the newline-terminated JSON-RPC line for a
share submission, abstracted to its determining fields. -/
def submitLine (id job nonce : Nat) : List Nat :=
  [id, job, nonce, 10]

/-- Request-kind tag for a pending share submission. -/
def submitKind : Nat := 3

/-- Modelled from the spec: `submitShare(job, nonce)` — legal only in
`Ready`; otherwise it fails locally with an error and neither the write
queue nor any other session component changes. In `Ready` it enqueues
one request line and registers the pending callback under a fresh id. -/
def submitShare (s : StratumSession) (job nonce : Nat) :
    Option StratumError × StratumSession :=
  if s.connectionState = .Ready then
    (none,
     { s with nextId := s.nextId + 1,
              pending := s.pending ++ [(s.nextId, submitKind)],
              writeQueue := s.writeQueue ++ [submitLine s.nextId job nonce] })
  else (some .NotReady, s)

/-- Embedded from src/private_keys/src/utill.cpp, `crypto`: XOR each data
byte with the key byte at the index modulo the key length. -/
def crypto (data key : List Nat) : List Nat :=
  (List.range data.length).map (fun i => data.getD i 0 ^^^ key.getD (i % key.length) 0)

/-- Embedded from src/private_keys/src/utill.cpp, `crypto_by_key`: the
in-place buffer variant computes the same bytes (output[i] =
input[i] XOR key[i mod strlen(key)] for i < N, with N the buffer size). -/
def crypto_by_key (input key : List Nat) : List Nat :=
  (List.range input.length).map (fun i => input.getD i 0 ^^^ key.getD (i % key.length) 0)

/-- Embedded from src/private_keys/src/utill.cpp, `decode`: decode a
buffer in place by applying `crypto_by_key` to it. -/
def decode (encoded key : List Nat) : List Nat :=
  crypto_by_key encoded key

/-- Embedded from src/ui/model/wallet_model.cpp,
`WalletModel::calcChange`: sum the selected coins' values (64-bit
arithmetic) and emit 0 when the sum is below the requested amount,
otherwise the sum minus the amount. The coin selection itself
(`_walletDB->selectCoins`) is external; it is abstracted as the list of
selected values. -/
def calcChange (coins : List Nat) (amount : Nat) : Nat :=
  let sum := coins.foldl (fun s v => (s + v) % 18446744073709551616) 0
  if sum < amount then 0 else sum - amount

/-- Modelled from the spec: `from_hex`'s whole-string flag (the utility
lives outside src/) — true exactly when every character is a hexadecimal
digit. -/
def isHexDigitChar (c : Char) : Bool :=
  c.isDigit || (('a' ≤ c && c ≤ 'f') || ('A' ≤ c && c ≤ 'F'))

/-- Embedded from src/ui/model/wallet_model.cpp,
`WalletModel::check_receiver_address`: reject an empty or over-64-char
address, then reject a non-hex address, and only then consult the key
store (`_keystore->encrypt`, external — abstracted as the oracle `ks`). -/
def check_receiver_address (ks : List Char → Bool) (addr : List Char) : Bool :=
  let sz := addr.length
  if sz = 0 || sz > 64 then false
  else
    let wholeStringIsNumber := addr.all isHexDigitChar
    if !wholeStringIsNumber then false
    else ks addr

/-- The mod-2^64 running sum equals the plain sum while no overflow can
occur. -/
theorem foldl_mod_sum (coins : List Nat) :
    ∀ a, a + coins.sum < 18446744073709551616 →
      coins.foldl (fun s v => (s + v) % 18446744073709551616) a = a + coins.sum := by
  induction coins with
  | nil => intro a _; simp
  | cons v rest ih =>
    intro a h
    simp only [List.sum_cons] at h
    show rest.foldl _ ((a + v) % 18446744073709551616) = _
    have hsmall : (a + v) % 18446744073709551616 = a + v := by
      apply Nat.mod_eq_of_lt
      have : rest.sum ≥ 0 := Nat.zero_le _
      omega
    rw [hsmall, ih (a + v) (by omega)]
    simp only [List.sum_cons]
    omega

/-- Claim C7: a Stratum session not in `Ready` rejects `submitShare`
locally with an error, leaving the session — in particular its outgoing
write queue — unchanged. -/
theorem c7_submit_share_before_ready (s : StratumSession) (job nonce : Nat)
    (h : s.connectionState ≠ .Ready) :
    (submitShare s job nonce).1 = some .NotReady ∧
    (submitShare s job nonce).2 = s ∧
    (submitShare s job nonce).2.writeQueue = s.writeQueue := by
  have hs : submitShare s job nonce = (some .NotReady, s) := by
    simp [submitShare, h]
  exact ⟨by rw [hs], by rw [hs], by rw [hs]⟩

theorem c7_witness :
    (submitShare ⟨.Authorizing, 4, [(2, 1)], [[9, 10]]⟩ 7 99).1 = some .NotReady ∧
    (submitShare ⟨.Authorizing, 4, [(2, 1)], [[9, 10]]⟩ 7 99).2 =
      ⟨.Authorizing, 4, [(2, 1)], [[9, 10]]⟩ ∧
    (submitShare ⟨.Authorizing, 4, [(2, 1)], [[9, 10]]⟩ 7 99).2.writeQueue = [[9, 10]] :=
  c7_submit_share_before_ready ⟨.Authorizing, 4, [(2, 1)], [[9, 10]]⟩ 7 99 (by decide)

/-- Claim C8: the XOR obfuscation is an involution — `crypto` twice with
the same non-empty key restores the data, `decode` twice restores the
buffer, and the output length always equals the input length. -/
theorem c8_crypto_involution (data key : List Nat) (_hk : key ≠ []) :
    crypto (crypto data key) key = data ∧
    decode (decode data key) key = data ∧
    (crypto data key).length = data.length := by
  have hlen : ∀ l : List Nat, (crypto l key).length = l.length := by
    intro l; simp [crypto]
  have hget : ∀ (l : List Nat) (i : Nat), i < l.length →
      (crypto l key).getD i 0 = l.getD i 0 ^^^ key.getD (i % key.length) 0 := by
    intro l i hi
    rw [List.getD_eq_getElem _ _ (by rw [hlen]; exact hi)]
    simp [crypto]
  have hmain : ∀ l : List Nat, crypto (crypto l key) key = l := by
    intro l
    apply List.ext_getElem (by rw [hlen, hlen])
    intro i h1 h2
    have hi : i < l.length := by rw [hlen, hlen] at h1; exact h1
    rw [← List.getD_eq_getElem (crypto (crypto l key) key) 0 h1,
      ← List.getD_eq_getElem l 0 h2]
    rw [hget (crypto l key) i (by rw [hlen]; exact hi), hget l i hi]
    exact Nat.xor_cancel_right _ _
  have hsame : ∀ l : List Nat, decode l key = crypto l key := fun _ => rfl
  exact ⟨hmain data, by rw [hsame, hsame]; exact hmain data, hlen data⟩

theorem c8_witness :
    crypto (crypto [104, 105] [42, 7, 9]) [42, 7, 9] = [104, 105] ∧
    decode (decode [104, 105] [42, 7, 9]) [42, 7, 9] = [104, 105] ∧
    (crypto [104, 105] [42, 7, 9]).length = 2 :=
  c8_crypto_involution [104, 105] [42, 7, 9] (by decide)

/-- Claim C9: `calcChange` emits 0 when the selected coins' total is
below the requested amount and total minus amount otherwise — i.e. the
emitted change is `max 0 (total - amount)`, never negative. -/
theorem c9_calc_change (coins : List Nat) (amount : Nat)
    (hsum : coins.sum < 18446744073709551616)
    (_hamount : amount < 18446744073709551616) :
    (calcChange coins amount : Int) = max 0 ((coins.sum : Int) - (amount : Int)) := by
  have hfold : coins.foldl (fun s v => (s + v) % 18446744073709551616) 0 = coins.sum := by
    have := foldl_mod_sum coins 0 (by omega)
    simpa using this
  simp only [calcChange, hfold]
  by_cases hlt : coins.sum < amount
  · rw [if_pos hlt, max_eq_left (by omega : (coins.sum : Int) - (amount : Int) ≤ 0)]
    simp
  · rw [if_neg hlt]
    push_neg at hlt
    rw [Nat.cast_sub hlt,
      max_eq_right (by omega : (0 : Int) ≤ (coins.sum : Int) - (amount : Int))]

theorem c9_witness :
    (calcChange [3, 5] 6 : Int) = max 0 ((([3, 5] : List Nat).sum : Int) - ((6 : Nat) : Int)) :=
  c9_calc_change [3, 5] 6 (by decide) (by decide)

/-- Claim C10: an empty address, an address longer than 64 characters, or
an address that is not entirely hexadecimal is rejected without the key
store being consulted: the result is `false` for every key-store
oracle. -/
theorem c10_reject_invalid_address (addr : List Char)
    (h : addr.length = 0 ∨ 64 < addr.length ∨ addr.all isHexDigitChar = false) :
    ∀ ks : List Char → Bool, check_receiver_address ks addr = false := by
  intro ks
  rcases h with h | h | h
  · have hc : (addr.length = 0 || addr.length > 64) = true := by simp [h]
    simp only [check_receiver_address]
    rw [if_pos hc]
  · have hc : (addr.length = 0 || addr.length > 64) = true := by
      simp
      omega
    simp only [check_receiver_address]
    rw [if_pos hc]
  · by_cases hsz : (addr.length = 0 || addr.length > 64) = true
    · simp only [check_receiver_address]
      rw [if_pos hsz]
    · simp only [check_receiver_address]
      rw [if_neg hsz]
      have hh : (!(addr.all isHexDigitChar)) = true := by rw [h]; rfl
      rw [if_pos hh]

theorem c10_witness :
    check_receiver_address (fun _ => true) ['x', '1'] = false ∧
    check_receiver_address (fun _ => true) [] = false :=
  ⟨c10_reject_invalid_address ['x', '1'] (by decide) (fun _ => true),
   c10_reject_invalid_address [] (by decide) (fun _ => true)⟩

/-- Claim C1: for every message type tag and payload `p` with
`size(p) ≤ MaxMessageSize`, feeding the Serializer's bytes for
`(type, p)` into a fresh Message Reader yields exactly one decoded
message, equal to `(type, p)`. -/
theorem c1_roundtrip_identity (m t : Nat) (p : List Nat)
    (ht : t < 256) (hp : p.length ≤ m) (hm : m ≤ fieldMax) :
    ∃ bytes, encode t p = some bytes ∧
      feed m ReaderState.fresh bytes = ⟨[⟨t, p⟩], ⟨[], none⟩⟩ := by
  refine ⟨encodeBytes t p, by simp [encode, le_trans hp hm], ?_⟩
  have hval : ∀ mg ∈ [Message.mk t p], mg.type < 256 ∧ mg.payload.length ≤ m := by
    intro mg hmg
    simp at hmg
    subst hmg
    exact ⟨ht, hp⟩
  have hext : extractLoop m (encodeAll [⟨t, p⟩]) = ([⟨t, p⟩], [], none) :=
    extract_encodeAll m hm [⟨t, p⟩] hval (encodeAll [⟨t, p⟩]).length le_rfl
  have henc : encodeAll [⟨t, p⟩] = encodeBytes t p := by simp [encodeAll]
  rw [← henc]
  simp [feed, ReaderState.fresh, hext]

theorem c1_witness :
    ∃ bytes, encode 3 [1, 2] = some bytes ∧
      feed 16 ReaderState.fresh bytes = ⟨[⟨3, [1, 2]⟩], ⟨[], none⟩⟩ :=
  c1_roundtrip_identity 16 3 [1, 2] (by decide) (by decide) (by decide)

/-- Claim C2: feeding the bytes of N consecutive encoded messages in any
partition into chunks (one byte at a time included) yields the same N
messages in the same order as feeding them in a single call. -/
theorem c2_chunked_equals_single (m : Nat) (msgs : List Message)
    (chunks : List (List Nat)) (hm : m ≤ fieldMax)
    (hv : ∀ mg ∈ msgs, mg.type < 256 ∧ mg.payload.length ≤ m)
    (hc : chunks.flatten = encodeAll msgs) :
    feedChunks m ReaderState.fresh chunks = (msgs, ⟨[], none⟩) ∧
    feed m ReaderState.fresh chunks.flatten = ⟨msgs, ⟨[], none⟩⟩ := by
  have hext : extractLoop m (encodeAll msgs) = (msgs, [], none) :=
    extract_encodeAll m hm msgs hv (encodeAll msgs).length le_rfl
  have hsingle : feed m ReaderState.fresh chunks.flatten = ⟨msgs, ⟨[], none⟩⟩ := by
    rw [hc]
    simp [feed, ReaderState.fresh, hext]
  refine ⟨?_, hsingle⟩
  rw [feedChunks_eq_single m chunks ReaderState.fresh (fun _ => quiescent_fresh m),
    hsingle]

theorem c2_witness :
    feedChunks 16 ReaderState.fresh
        [[1], [1], [0], [0], [0], [5], [2], [0], [0], [0], [0]] =
      ([⟨1, [5]⟩, ⟨2, []⟩], ⟨[], none⟩) ∧
    feed 16 ReaderState.fresh
        [[1], [1], [0], [0], [0], [5], [2], [0], [0], [0], [0]].flatten =
      ⟨[⟨1, [5]⟩, ⟨2, []⟩], ⟨[], none⟩⟩ :=
  c2_chunked_equals_single 16 [⟨1, [5]⟩, ⟨2, []⟩]
    [[1], [1], [0], [0], [0], [5], [2], [0], [0], [0], [0]]
    (by decide) (by decide) (by decide)

/-- Claim C5: after any feed call that has not failed, the reader's
partial buffer holds at most `MaxMessageSize + HeaderSize` bytes. -/
theorem c5_buffer_bounded (m : Nat) (s : ReaderState) (bytes : List Nat)
    (h : (feed m s bytes).state.error = none) :
    (feed m s bytes).state.buffer.length ≤ m + headerSize := by
  rcases hse : s.error with _ | e
  · have hs : s.error.isSome = false := by rw [hse]; rfl
    have hfx : feed m s bytes =
        ⟨(extractLoop m (s.buffer ++ bytes)).1,
         ⟨(extractLoop m (s.buffer ++ bytes)).2.1,
          (extractLoop m (s.buffer ++ bytes)).2.2⟩⟩ := by
      simp [feed, hs]
    rw [hfx] at h ⊢
    simp only at h ⊢
    have hb := extractFuel_bound m (s.buffer ++ bytes).length (s.buffer ++ bytes)
      le_rfl h
    show (extractFuel m (s.buffer ++ bytes).length (s.buffer ++ bytes)).2.1.length ≤ _
    simp only [headerSize]
    omega
  · rw [feed_failed m s bytes (by simp [hse])] at h
    simp [hse] at h

theorem c5_witness :
    (feed 16 ReaderState.fresh [1, 2]).state.buffer.length ≤ 16 + headerSize :=
  c5_buffer_bounded 16 ReaderState.fresh [1, 2] (by decide)

/-- Claim C6: a zero-byte feed on any state the reader reaches (any
post-feed state, the fresh state included) changes nothing and yields no
message; a frame declaring length zero is valid and its header-only bytes
deliver a message with an empty payload in that same feed call. -/
theorem c6_zero_byte_and_zero_length (m : Nat) (s : ReaderState) (bytes : List Nat)
    (t : Nat) :
    feed m (feed m s bytes).state [] = ⟨[], (feed m s bytes).state⟩ ∧
    feed m ReaderState.fresh [] = ⟨[], ReaderState.fresh⟩ ∧
    feed m ReaderState.fresh [t, 0, 0, 0, 0] = ⟨[⟨t, []⟩], ⟨[], none⟩⟩ := by
  refine ⟨?_, ?_, ?_⟩
  · exact feed_quiescent_nil m (feed m s bytes).state
      (fun herr => feed_quiescent m s bytes herr)
  · exact feed_quiescent_nil m ReaderState.fresh (fun _ => quiescent_fresh m)
  · have h0 : fromLE32 0 0 0 0 = 0 := by simp [fromLE32]
    have hext : extractLoop m [t, 0, 0, 0, 0] = ([⟨t, []⟩], [], none) := by
      show extractFuel m (4 + 1) [t, 0, 0, 0, 0] = _
      simp only [extractFuel, h0]
      rw [if_neg (by omega), if_neg (by simp)]
      simp [extractFuel_short m 4 [] (by simp)]
    simp [feed, ReaderState.fresh, hext]

/-- Claim C3: a frame header declaring a length over `MaxMessageSize`
makes the Reader fail with `FrameTooLarge` at that frame (after the
messages framed before it), and from the failed state no message is ever
decoded again, for every sequence of subsequent feed calls — even when
the following bytes form valid frames. -/
theorem c3_frame_too_large_is_terminal (m : Nat) (msgs : List Message)
    (h0 h1 h2 h3 h4 : Nat) (junk : List Nat) (chunksAfter : List (List Nat))
    (hm : m ≤ fieldMax)
    (hv : ∀ mg ∈ msgs, mg.type < 256 ∧ mg.payload.length ≤ m)
    (hbad : m < fromLE32 h1 h2 h3 h4) :
    feed m ReaderState.fresh
        (encodeAll msgs ++ (h0 :: h1 :: h2 :: h3 :: h4 :: junk)) =
      ⟨msgs, ⟨[], some .FrameTooLarge⟩⟩ ∧
    feedChunks m ⟨[], some .FrameTooLarge⟩ chunksAfter =
      ([], ⟨[], some .FrameTooLarge⟩) := by
  have hgood : extractFuel m
      (encodeAll msgs ++ (h0 :: h1 :: h2 :: h3 :: h4 :: junk)).length
      (encodeAll msgs) = (msgs, [], none) :=
    extract_encodeAll m hm msgs hv _ (by simp)
  have hbadx : extractFuel m
      (encodeAll msgs ++ (h0 :: h1 :: h2 :: h3 :: h4 :: junk)).length
      ([] ++ (h0 :: h1 :: h2 :: h3 :: h4 :: junk)) =
      ([], [], some .FrameTooLarge) := by
    rw [List.nil_append]
    rw [extractFuel_congr m _ (junk.length + 4 + 1) _
      (by simp) (by simp)]
    simp only [extractFuel, if_pos hbad]
  have happ := extract_append m
    (encodeAll msgs ++ (h0 :: h1 :: h2 :: h3 :: h4 :: junk)).length
    (encodeAll msgs) (h0 :: h1 :: h2 :: h3 :: h4 :: junk)
    msgs [] [] [] (some .FrameTooLarge) (by simp) hgood hbadx
  constructor
  · have hext : extractLoop m
        (encodeAll msgs ++ (h0 :: h1 :: h2 :: h3 :: h4 :: junk)) =
        (msgs ++ [], [], some .FrameTooLarge) := by
      rw [extractLoop_fuel m _ _ le_rfl]
      exact happ
    simp [feed, ReaderState.fresh, hext]
  · exact feedChunks_failed m chunksAfter ⟨[], some .FrameTooLarge⟩ rfl

theorem c3_witness :
    feed 16 ReaderState.fresh
        (encodeAll [⟨1, []⟩] ++ (9 :: 255 :: 255 :: 255 :: 255 :: [2, 0, 0, 0, 0])) =
      ⟨[⟨1, []⟩], ⟨[], some .FrameTooLarge⟩⟩ ∧
    feedChunks 16 ⟨[], some .FrameTooLarge⟩ [[2, 0, 0, 0, 0]] =
      ([], ⟨[], some .FrameTooLarge⟩) :=
  c3_frame_too_large_is_terminal 16 [⟨1, []⟩] 9 255 255 255 255
    [2, 0, 0, 0, 0] [[2, 0, 0, 0, 0]] (by decide) (by decide) (by decide)

/-- Claim C4: on a connection whose version is not yet negotiated, a
first decoded message that is not the handshake fails the connection with
`ProtocolViolation`, transitions it to `Closed`, and no registered
handler is invoked for that message or any later one — subsequent
`onNewData` calls are absorbed entirely. -/
theorem c4_non_handshake_first_message (hsType m : Nat) (handlers : List Nat)
    (bytes : List Nat) (msg0 : Message) (restMsgs : List Message)
    (hmsgs : (feed m ReaderState.fresh bytes).msgs = msg0 :: restMsgs)
    (hnot : msg0.type ≠ hsType) :
    (onNewData hsType m (ProtoState.init handlers) bytes).conn = .Closed ∧
    (onNewData hsType m (ProtoState.init handlers) bytes).protoError =
      some .ProtocolViolation ∧
    (onNewData hsType m (ProtoState.init handlers) bytes).calls = [] ∧
    ∀ more,
      onNewData hsType m (onNewData hsType m (ProtoState.init handlers) bytes) more =
        onNewData hsType m (ProtoState.init handlers) bytes := by
  have key : onNewData hsType m (ProtoState.init handlers) bytes =
      { conn := .Closed, negotiatedVersion := none,
        reader := (feed m ReaderState.fresh bytes).state,
        handlers := handlers, calls := [],
        protoError := some .ProtocolViolation } := by
    simp only [onNewData, ProtoState.init]
    rw [if_neg (by simp)]
    rw [hmsgs, List.foldl_cons]
    have hd : dispatchOne hsType
        { conn := ConnState.Negotiating, negotiatedVersion := none,
          reader := (feed m ReaderState.fresh bytes).state,
          handlers := handlers, calls := [], protoError := none } msg0 =
        { conn := ConnState.Closed, negotiatedVersion := none,
          reader := (feed m ReaderState.fresh bytes).state,
          handlers := handlers, calls := [],
          protoError := some ProtoError.ProtocolViolation } := by
      simp [dispatchOne, hnot]
    rw [hd, dispatchOne_closed hsType _ rfl restMsgs]
    rcases herr : (feed m ReaderState.fresh bytes).state.error with _ | e
    · simp
    · simp
  refine ⟨by rw [key], by rw [key], by rw [key], ?_⟩
  intro more
  exact onNewData_closed hsType m _ (by rw [key]) more

theorem c4_witness :
    (onNewData 0 16 (ProtoState.init []) [1, 0, 0, 0, 0]).conn = .Closed ∧
    (onNewData 0 16 (ProtoState.init []) [1, 0, 0, 0, 0]).protoError =
      some .ProtocolViolation ∧
    (onNewData 0 16 (ProtoState.init []) [1, 0, 0, 0, 0]).calls = [] ∧
    onNewData 0 16 (onNewData 0 16 (ProtoState.init []) [1, 0, 0, 0, 0]) [2, 0, 0, 0, 0] =
      onNewData 0 16 (ProtoState.init []) [1, 0, 0, 0, 0] := by
  have h := c4_non_handshake_first_message 0 16 [] [1, 0, 0, 0, 0] ⟨1, []⟩ []
    (by decide) (by decide)
  exact ⟨h.1, h.2.1, h.2.2.1, h.2.2.2 [2, 0, 0, 0, 0]⟩
